import Mathlib

/-!
Verification of the Velo-Share repository: a rendezvous/relay service
(WebSocket room server), a WebRTC handshake coordinator, and a chunked
file-transfer engine.  Each definition below is a shallow embedding of one
function of the JavaScript source; theorems at the end settle the spec
claims against these definitions.
-/

namespace Velo

/-! ### Association lists: the model of a JavaScript Map

JS Map semantics: `set` replaces the value in place when the key exists and
appends at the end otherwise (insertion order is preserved); `delete`
removes the entry; `get` returns the value or undefined. -/

def lookupA {α β : Type} [DecidableEq α] : List (α × β) → α → Option β
  | [], _ => none
  | (k, v) :: rest, k' => if k = k' then some v else lookupA rest k'

def setA {α β : Type} [DecidableEq α] : List (α × β) → α → β → List (α × β)
  | [], k, v => [(k, v)]
  | (k0, v0) :: rest, k, v =>
      if k0 = k then (k0, v) :: rest else (k0, v0) :: setA rest k v

def eraseA {α β : Type} [DecidableEq α] : List (α × β) → α → List (α × β)
  | [], _ => []
  | (k0, v0) :: rest, k => if k0 = k then rest else (k0, v0) :: eraseA rest k

/-! ### Receiver model (`part_002`, class VeloApp, receive side)

Bytes are modelled as lists of naturals; a Blob built from a list of chunks
is their concatenation. -/

abbrev Bytes := List Nat

/-- An entry of `this.transfers` on the receive side:
`{ name, size, chunks: [], received: 0 }` (receiveFileStart). -/
structure InboundTransfer where
  name : String
  size : Nat
  chunks : List Bytes
  received : Nat
deriving Repr, DecidableEq

/-- The per-peer record of `this.connections`; only the `receivingId` field
participates in the transfer logic. -/
structure PeerInfo where
  receivingId : Option Nat
deriving Repr, DecidableEq

/-- Receive-side state of the VeloApp class: `connections`, `transfers`,
`totalBytesTransferred`, plus the list of finished Blobs handed to the user
(the download step in receiveFileEnd), in completion order. -/
structure ReceiverState where
  connections : List (String × PeerInfo)
  transfers : List (Nat × InboundTransfer)
  totalBytesTransferred : Nat
  delivered : List (String × Bytes)
deriving Repr, DecidableEq

/-- Payload of the `file-start` control message. -/
structure FileStartMsg where
  id : Nat
  name : String
  size : Nat
deriving Repr, DecidableEq

/-- `receiveFileStart(peerId, data)`: lock the peer to this transfer id and
create the inbound transfer record. -/
def receiveFileStart (st : ReceiverState) (peerId : String) (data : FileStartMsg) :
    ReceiverState :=
  let conns :=
    match lookupA st.connections peerId with
    | some _ => setA st.connections peerId ⟨some data.id⟩
    | none => st.connections
  { st with
    connections := conns
    transfers := setA st.transfers data.id ⟨data.name, data.size, [], 0⟩ }

/-- `receiveFileChunkRaw(peerId, chunk)`: ignore stray binary data from a
peer with no active inbound transfer; otherwise append the chunk in arrival
order and advance the byte counters. -/
def receiveFileChunkRaw (st : ReceiverState) (peerId : String) (chunk : Bytes) :
    ReceiverState :=
  match lookupA st.connections peerId with
  | none => st
  | some pinfo =>
    match pinfo.receivingId with
    | none => st
    | some transferId =>
      match lookupA st.transfers transferId with
      | none => st
      | some t =>
        { st with
          transfers := setA st.transfers transferId
            { t with chunks := t.chunks ++ [chunk],
                     received := t.received + chunk.length }
          totalBytesTransferred := st.totalBytesTransferred + chunk.length }

/-- `receiveFileEnd(peerId, data)`: unlock the peer, build the Blob by
concatenating the accumulated chunks in arrival order, hand it to the user,
and discard the inbound transfer. -/
def receiveFileEnd (st : ReceiverState) (peerId : String) (endId : Nat) :
    ReceiverState :=
  let conns :=
    match lookupA st.connections peerId with
    | some _ => setA st.connections peerId ⟨none⟩
    | none => st.connections
  let st1 := { st with connections := conns }
  match lookupA st1.transfers endId with
  | none => st1
  | some t =>
    { st1 with
      transfers := eraseA st1.transfers endId
      delivered := st1.delivered ++ [(t.name, t.chunks.flatten)] }

/-- A data-plane message as seen by the receive dispatch in `part_002`
(`conn.on data`): a `file-start` envelope, a raw binary chunk, or a
`file-end` envelope. -/
inductive RMsg where
  | start (peerId : String) (data : FileStartMsg)
  | raw (peerId : String) (chunk : Bytes)
  | fend (peerId : String) (id : Nat)

def receiverStep (st : ReceiverState) : RMsg → ReceiverState
  | .start p d => receiveFileStart st p d
  | .raw p c => receiveFileChunkRaw st p c
  | .fend p i => receiveFileEnd st p i

def receiverRun (st : ReceiverState) (msgs : List RMsg) : ReceiverState :=
  msgs.foldl receiverStep st

/-! ### Sender chunking (`part_002` / `velo-app.js`, sendFile)

The chunk loop slices `file.slice(offset, offset + chunkSize)`, sends the
slice, advances the offset by the actual byte length, and repeats while
`offset < file.size`; the very first slice is read before the loop
condition is checked, so even an empty file produces one (empty) chunk.
The chunk size at step k is a trajectory `sizes k`: the constant
512 KB in `part_002`, or the adaptive lookup-table value
(between 256 KB and 2 MB) in `velo-app.js`. -/

def sendChunkList : Nat → Bytes → (Nat → Nat) → Nat → List Bytes
  | 0, _, _, _ => []
  | fuel + 1, file, sizes, k =>
      let c := file.take (sizes k)
      let rest := file.drop (sizes k)
      c :: (if rest.isEmpty then [] else sendChunkList fuel rest sizes (k + 1))

/-- The full sequence of raw chunks produced for `file` under the
chunk-size trajectory `sizes`. -/
def chunksOf (file : Bytes) (sizes : Nat → Nat) : List Bytes :=
  sendChunkList (file.length + 1) file sizes 0

/-! ### Sender backpressure model (`part_002`, sendFile chunk loop)

`sendNextChunk` sums `conn.dataChannel.bufferedAmount` over all target
connections; if the total exceeds the 8 MB threshold it re-arms itself
after a 10 ms delay without sending, otherwise it reads the next 512 KB
slice and sends it to every connection.  The data-channel consumer drains
buffered bytes concurrently.  The threshold and chunk size in the source
are fixed constants, with no dependence on the number of connections. -/

/-- The backpressure threshold of the `part_002` chunk loop:
`8 * 1024 * 1024` bytes. -/
def highWaterMark : Nat := 8 * 1024 * 1024

/-- The raw chunk size of the `part_002` chunk loop: `512 * 1024` bytes. -/
def rawChunkSize : Nat := 512 * 1024

/-- Sender-side state: outstanding buffered bytes of each of the W target
data channels, and the current read offset into the file. -/
structure SenderState where
  buffered : List Nat
  offset : Nat
deriving Repr, DecidableEq

/-- One step of the chunk loop interleaved with the environment:
either the consumers drain some buffered bytes (pointwise decrease), or,
when the total buffered amount is not above the high-water mark and bytes
remain, one slice of size `min rawChunkSize (size - offset)` is sent to
every channel. -/
inductive SendStep (size : Nat) : SenderState → SenderState → Prop
  | drain (b b' : List Nat) (o : Nat) (h : List.Forall₂ (· ≤ ·) b' b) :
      SendStep size ⟨b, o⟩ ⟨b', o⟩
  | send (b : List Nat) (o : Nat) (ho : o < size) (hb : b.sum ≤ highWaterMark) :
      SendStep size ⟨b, o⟩
        ⟨b.map (· + min rawChunkSize (size - o)), o + min rawChunkSize (size - o)⟩

/-- Initial sender state for fan-out width W: all channels empty, offset 0. -/
def senderInit (w : Nat) : SenderState := ⟨List.replicate w 0, 0⟩

/-- Reachability of a sender state from the initial state by chunk-loop and
drain steps. -/
def SendReach (w size : Nat) (st : SenderState) : Prop :=
  Relation.ReflTransGen (SendStep size) (senderInit w) st

/-! ### Transfer queue (`part_002`: queueFileForSending /
processTransferQueue / sendFile lock) -/

/-- Queue-engine state: the pending queue, the `isSending` lock, the set of
transfers whose chunk loop is currently streaming, and the finished ones. -/
structure QueueState where
  sendingQueue : List Nat
  isSending : Bool
  sending : List Nat
  completed : List Nat
deriving Repr, DecidableEq

/-- `processTransferQueue()`: if the lock is held or the queue is empty do
nothing, otherwise shift the head of the queue and start sending it
(sendFile sets the lock). -/
def processTransferQueue (st : QueueState) : QueueState :=
  if st.isSending then st
  else
    match st.sendingQueue with
    | [] => st
    | f :: rest =>
        { st with sendingQueue := rest, isSending := true,
                  sending := st.sending ++ [f] }

/-- Events of the queue engine: a file is queued (queueFileForSending calls
processTransferQueue), the active chunk loop finishes (releasing the lock),
or a deferred processTransferQueue callback fires. -/
inductive QEvent where
  | queueFile (f : Nat)
  | finish (f : Nat)
  | process

def queueStep (st : QueueState) : QEvent → QueueState
  | .queueFile f =>
      processTransferQueue { st with sendingQueue := st.sendingQueue ++ [f] }
  | .finish f =>
      if f ∈ st.sending then
        { st with sending := st.sending.erase f,
                  completed := st.completed ++ [f], isSending := false }
      else st
  | .process => processTransferQueue st

def queueInit : QueueState := ⟨[], false, [], []⟩

def queueRun (evs : List QEvent) : QueueState := evs.foldl queueStep queueInit

/-! ### FileTransferManager send path (`transfer.js`, sendFile)

`sendFile` creates a transfer record with `status: sending` in
`this.transfers` and immediately starts its own chunk loop; there is no
lock, so a second call made before the first completes creates a second
record in `sending` status. -/

/-- The transfers map of FileTransferManager, reduced to the lifecycle
status of each outbound transfer. -/
structure FTMState where
  transfers : List (Nat × String)
deriving Repr, DecidableEq

/-- `sendFile(file)`: registers the new transfer with status `sending`
(no serialization check). -/
def ftmSendFile (st : FTMState) (transferId : Nat) : FTMState :=
  ⟨setA st.transfers transferId "sending"⟩

/-- Completion branch of `sendChunks`: the transfer becomes `complete`. -/
def ftmCompleteSend (st : FTMState) (transferId : Nat) : FTMState :=
  match lookupA st.transfers transferId with
  | some _ => ⟨setA st.transfers transferId "complete"⟩
  | none => st

/-- Number of outbound transfers currently in `sending` status. -/
def ftmSendingCount (st : FTMState) : Nat :=
  (st.transfers.filter (fun kv => kv.2 = "sending")).length

/-! ### Handshake coordinator (`webrtc.js`), one remote peer

State of the RTCPeerConnection for one remote endpoint, as far as ICE
candidate handling observes it: whether the connection object exists,
whether the remote description has been set, the pending candidate buffer,
and the list of candidates passed to addIceCandidate, in call order. -/

structure PeerConn where
  hasPC : Bool
  remoteDescriptionSet : Bool
  pending : List Nat
  applied : List Nat
deriving Repr, DecidableEq

/-- `createPeerConnection`: returns the existing connection if present,
otherwise creates one and initializes its pending-candidate buffer. -/
def createPC (s : PeerConn) : PeerConn :=
  if s.hasPC then s else { s with hasPC := true, pending := [] }

/-- Handshake events for one remote peer: `initiateConnection`,
`handleOffer` (which sets the remote description), `handleAnswer`,
`handleIceCandidate`, and the data-channel `onopen` callback of
`setupDataChannel`. -/
inductive HSEvent where
  | initiate
  | offer
  | answer
  | candidate (c : Nat)
  | openCh

def hsStep (s : PeerConn) : HSEvent → PeerConn
  | .initiate => createPC s
  | .offer => { createPC s with remoteDescriptionSet := true }
  | .answer => if s.hasPC then { s with remoteDescriptionSet := true } else s
  | .candidate c =>
      if s.hasPC then
        if s.remoteDescriptionSet then { s with applied := s.applied ++ [c] }
        else { s with pending := s.pending ++ [c] }
      else s
  | .openCh =>
      { s with
        applied := if s.hasPC then s.applied ++ s.pending else s.applied,
        pending := [] }

def hsInit : PeerConn := ⟨false, false, [], []⟩

def hsRun (evs : List HSEvent) : PeerConn := evs.foldl hsStep hsInit

/-! ### Rendezvous/relay server (`part_001`)

Rooms are a Map from room code to a room record holding a Map from user id
to member data; each WebSocket carries `userId`, `roomCode` and
`username` fields. -/

/-- The `{ id, username }` projection sent in every member list. -/
structure Member where
  userId : String
  username : String
deriving Repr, DecidableEq

/-- A room record: its code and its user Map (insertion-ordered). -/
structure Room where
  code : String
  users : List (String × Member)
deriving Repr, DecidableEq

/-- The per-connection fields `ws.roomCode` and `ws.username`. -/
structure Client where
  roomCode : Option String
  username : String
deriving Repr, DecidableEq

/-- Server state: the global `rooms` Map and the per-connection fields of
every live WebSocket, keyed by user id. -/
structure ServerState where
  rooms : List (String × Room)
  clients : List (String × Client)
deriving Repr, DecidableEq

/-- Messages the server sends to clients (the member lists are always the
full `Array.from(room.users.values())` projection, never a delta). -/
inductive ServerMsg where
  | roomCreated (roomCode : String) (users : List Member)
  | roomJoined (roomCode : String) (users : List Member)
  | userJoined (newUser : Member) (users : List Member)
  | userLeft (userId : String) (users : List Member)
  | errorMsg (message : String)
deriving Repr, DecidableEq

/-- An output batch: messages paired with the user id of the receiving
WebSocket, in send order. -/
abbrev ServerOut := List (String × ServerMsg)

/-- The alphabet of `generateRoomCode`:
`ABCDEFGHJKLMNPQRSTUVWXYZ23456789`. -/
def roomChars : List Char := "ABCDEFGHJKLMNPQRSTUVWXYZ23456789".toList

/-- `generateRoomCode()`: six characters, each drawn from `roomChars` at an
index below its length; the random draws are modelled by `rand`, reduced
modulo the alphabet length exactly as `Math.floor(Math.random() * chars.length)`
always lands below the length. -/
def generateRoomCode (rand : Nat → Nat) : String :=
  String.mk ((List.range 6).map (fun i => roomChars.getD (rand i % roomChars.length) 'A'))

/-- `createRoom(ws, username)`: store a fresh room containing only the
requester and reply with the singleton member list.  The source retries
`generateRoomCode` in a while-loop until the code is not already a live
room key; `rand` models the draw of the successful attempt, so call sites
carry the freshness fact the loop establishes. -/
def createRoom (st : ServerState) (uid username : String) (rand : Nat → Nat) :
    ServerState × ServerOut :=
  let code := generateRoomCode rand
  let me : Member := ⟨uid, username⟩
  ( { rooms := setA st.rooms code ⟨code, [(uid, me)]⟩,
      clients := setA st.clients uid ⟨some code, username⟩ },
    [(uid, .roomCreated code [me])] )

/-- `leaveRoom(ws)`: no-op when the socket has no room code or the code
names no live room; otherwise remove the user, broadcast `user-left` with
the updated full member list to every remaining member, delete the room if
it became empty, and clear `ws.roomCode`. -/
def leaveRoom (st : ServerState) (uid : String) : ServerState × ServerOut :=
  match lookupA st.clients uid with
  | none => (st, [])
  | some c =>
    match c.roomCode with
    | none => (st, [])
    | some code =>
      match lookupA st.rooms code with
      | none => (st, [])
      | some room =>
        let users' := eraseA room.users uid
        let userList := users'.map (·.2)
        let broadcasts : ServerOut :=
          users'.map (fun kv => (kv.1, ServerMsg.userLeft uid userList))
        let rooms' :=
          if users'.isEmpty then eraseA st.rooms code
          else setA st.rooms code { room with users := users' }
        ( { rooms := rooms',
            clients := setA st.clients uid { c with roomCode := none } },
          broadcasts )

/-- `roomCode.toUpperCase()`: character-wise ASCII uppercasing. -/
def jsToUpper (s : String) : String := String.mk (s.toList.map Char.toUpper)

/-- `joinRoom(ws, roomCode, username)`: the lookup key is the uppercased
code; an unknown code yields an `error` reply to the requester only.  On
success the socket first leaves its current room (if any), then the user is
added to the user Map of the room object captured before that leave; the
joiner receives `room-joined` with the full member list and every other
member receives `user-joined` with the same list.

The captured room object is shared with the `rooms` table: if the leave
deleted that very room (the joiner was its sole member), the mutation lands
on an object no longer in the table, which the model reflects by leaving
`rooms` unchanged in that branch while the joiner still receives the list
built from the orphaned object. -/
def joinRoom (st : ServerState) (uid roomCodeArg username : String) :
    ServerState × ServerOut :=
  let code := jsToUpper roomCodeArg
  match lookupA st.rooms code with
  | none => (st, [(uid, .errorMsg "Room not found")])
  | some room0 =>
    let inRoom := ((lookupA st.clients uid).bind Client.roomCode).isSome
    let lv := if inRoom then leaveRoom st uid else (st, [])
    let st1 := lv.1
    let newMember : Member := ⟨uid, username⟩
    match lookupA st1.rooms code with
    | some room1 =>
        let room2 := { room1 with users := setA room1.users uid newMember }
        let userList := room2.users.map (·.2)
        let broadcasts : ServerOut :=
          (room2.users.filter (fun kv => kv.1 ≠ uid)).map
            (fun kv => (kv.1, ServerMsg.userJoined newMember userList))
        ( { rooms := setA st1.rooms code room2,
            clients := setA st1.clients uid ⟨some code, username⟩ },
          lv.2 ++ [(uid, .roomJoined code userList)] ++ broadcasts )
    | none =>
        let orphanUsers := setA (eraseA room0.users uid) uid newMember
        let userList := orphanUsers.map (·.2)
        let broadcasts : ServerOut :=
          (orphanUsers.filter (fun kv => kv.1 ≠ uid)).map
            (fun kv => (kv.1, ServerMsg.userJoined newMember userList))
        ( { rooms := st1.rooms,
            clients := setA st1.clients uid ⟨some code, username⟩ },
          lv.2 ++ [(uid, .roomJoined code userList)] ++ broadcasts )

/-- A new WebSocket connection: a fresh user id with no room. -/
def connectClient (st : ServerState) (uid : String) : ServerState :=
  { st with clients := setA st.clients uid ⟨none, ""⟩ }

/-- Socket close: the server runs `leaveRoom` and the socket record goes
away. -/
def disconnectClient (st : ServerState) (uid : String) : ServerState × ServerOut :=
  let lv := leaveRoom st uid
  ({ lv.1 with clients := eraseA lv.1.clients uid }, lv.2)

/-- Server states reachable from the empty server by connections,
`create-room`, `join-room`, `leave-room` and disconnects.  The `create`
step carries the freshness fact that the retry loop of `createRoom`
establishes before the table is written. -/
inductive ServerReach : ServerState → Prop
  | init : ServerReach ⟨[], []⟩
  | connect (st : ServerState) (uid : String) (h : ServerReach st) :
      ServerReach (connectClient st uid)
  | create (st : ServerState) (uid username : String) (rand : Nat → Nat)
      (h : ServerReach st)
      (hfresh : lookupA st.rooms (generateRoomCode rand) = none) :
      ServerReach (createRoom st uid username rand).1
  | join (st : ServerState) (uid roomCodeArg username : String)
      (h : ServerReach st) :
      ServerReach (joinRoom st uid roomCodeArg username).1
  | leave (st : ServerState) (uid : String) (h : ServerReach st) :
      ServerReach (leaveRoom st uid).1
  | disconnect (st : ServerState) (uid : String) (h : ServerReach st) :
      ServerReach (disconnectClient st uid).1

/-- The serialization invariant of the queue engine: the lock is free and
nothing streams, or the lock is held by exactly one streaming transfer. -/
def QueueInv (st : QueueState) : Prop :=
  (st.isSending = false ∧ st.sending = []) ∨
  (st.isSending = true ∧ ∃ x, st.sending = [x])

/-- The member list a client can observe for a room code: the full
`Array.from(room.users.values())` projection of the current user Map, or
nothing when the code names no live room. -/
def membersOf (st : ServerState) (code : String) : Option (List Member) :=
  (lookupA st.rooms code).map (fun r => r.users.map (·.2))

/-- The shape every room code has: exactly six characters, all drawn from
the ambiguity-free alphabet. -/
def ValidCode (code : String) : Prop :=
  code.length = 6 ∧ ∀ c ∈ code.toList, c ∈ roomChars

/-- Well-formedness of a list of live room codes: no duplicates, and every
code has the generated shape. -/
def KeysWF (ks : List String) : Prop :=
  ks.Nodup ∧ ∀ code ∈ ks, ValidCode code

/-- Well-formedness of the room table: no two live rooms share a code, and
every live code has the generated shape. -/
def RoomsWF (st : ServerState) : Prop :=
  KeysWF (st.rooms.map Prod.fst)

/-! ### Association-list lemmas -/

theorem lookupA_setA_self {α β : Type} [DecidableEq α] (l : List (α × β)) (k : α) (v : β) :
    lookupA (setA l k v) k = some v := by
  induction l with
  | nil => simp [setA, lookupA]
  | cons kv rest ih =>
    by_cases h : kv.1 = k
    · simp [setA, lookupA, h]
    · simp [setA, lookupA, h, ih]

theorem lookupA_setA_ne {α β : Type} [DecidableEq α] (l : List (α × β)) (k k' : α) (v : β)
    (h : k ≠ k') : lookupA (setA l k v) k' = lookupA l k' := by
  induction l with
  | nil => simp [setA, lookupA, h]
  | cons kv rest ih =>
    obtain ⟨k0, v0⟩ := kv
    by_cases hk : k0 = k
    · subst hk
      simp [setA, lookupA, h]
    · by_cases hk' : k0 = k'
      · simp [setA, lookupA, hk, hk', Ne.symm h]
      · simp [setA, lookupA, hk, hk', ih]

/-! ### Chunking lemmas -/

theorem sendChunkList_flatten (sizes : Nat → Nat) (hs : ∀ j, 1 ≤ sizes j) :
    ∀ (fuel : Nat) (file : Bytes) (k : Nat), file.length < fuel →
      (sendChunkList fuel file sizes k).flatten = file := by
  intro fuel
  induction fuel with
  | zero => intro file k h; exact absurd h (Nat.not_lt_zero _)
  | succ fuel ih =>
    intro file k h
    rw [sendChunkList]
    by_cases hrest : (file.drop (sizes k)).isEmpty
    · rw [if_pos hrest]
      have hnil : file.drop (sizes k) = [] := List.isEmpty_iff.mp hrest
      have hlen : file.length ≤ sizes k := List.drop_eq_nil_iff.mp hnil
      simp [List.take_of_length_le hlen]
    · rw [if_neg hrest]
      have hnil : file.drop (sizes k) ≠ [] := by
        intro hcon
        exact hrest (List.isEmpty_iff.mpr hcon)
      have hflen : sizes k < file.length := by
        by_contra hle
        exact hnil (List.drop_eq_nil_iff.mpr (Nat.le_of_not_lt hle))
      have hfuel : (file.drop (sizes k)).length < fuel := by
        rw [List.length_drop]
        have h1 : 1 ≤ sizes k := hs k
        omega
      rw [List.flatten_cons, ih _ _ hfuel, List.take_append_drop]

theorem chunksOf_flatten (file : Bytes) (sizes : Nat → Nat) (hs : ∀ j, 1 ≤ sizes j) :
    (chunksOf file sizes).flatten = file :=
  sendChunkList_flatten sizes hs _ file 0 (Nat.lt_succ_self _)

/-! ### Receiver-run lemmas -/

/-- Processing a list of raw chunks from peer p, while p is locked to
transfer id and that transfer is the only one present, appends the chunks
in arrival order and adds their total length to the byte counters. -/
theorem receiverRun_raw (p : String) (id : Nat) (cs : List Bytes) :
    ∀ (t : InboundTransfer) (tot : Nat) (d : List (String × Bytes)),
      receiverRun ⟨[(p, ⟨some id⟩)], [(id, t)], tot, d⟩ (cs.map (RMsg.raw p)) =
        ⟨[(p, ⟨some id⟩)],
         [(id, { t with chunks := t.chunks ++ cs,
                        received := t.received + (cs.map List.length).sum })],
         tot + (cs.map List.length).sum, d⟩ := by
  induction cs with
  | nil => intro t tot d; simp [receiverRun]
  | cons c cs ih =>
    intro t tot d
    have hstep :
        receiverStep ⟨[(p, ⟨some id⟩)], [(id, t)], tot, d⟩ (RMsg.raw p c) =
          ⟨[(p, ⟨some id⟩)],
           [(id, { t with chunks := t.chunks ++ [c],
                          received := t.received + c.length })],
           tot + c.length, d⟩ := by
      simp [receiverStep, receiveFileChunkRaw, lookupA, setA]
    rw [List.map_cons, receiverRun, List.foldl_cons, hstep, ← receiverRun, ih]
    simp [Nat.add_assoc, List.append_assoc]

/-- The complete receive of one file: the full data-plane message sequence
produced by the sender drives the receiver to deliver exactly the original
byte sequence. -/
theorem receiverRun_complete (file : Bytes) (sizes : Nat → Nat)
    (hsizes : ∀ j, 1 ≤ sizes j) (p name : String) (id : Nat) :
    receiverRun ⟨[(p, ⟨none⟩)], [], 0, []⟩
        (RMsg.start p ⟨id, name, file.length⟩ ::
          ((chunksOf file sizes).map (RMsg.raw p) ++ [RMsg.fend p id])) =
      ⟨[(p, ⟨none⟩)], [], ((chunksOf file sizes).map List.length).sum,
       [(name, file)]⟩ := by
  have hflat : (chunksOf file sizes).flatten = file :=
    chunksOf_flatten file sizes hsizes
  have h1 : receiverStep ⟨[(p, ⟨none⟩)], [], 0, []⟩
      (RMsg.start p ⟨id, name, file.length⟩) =
      ⟨[(p, ⟨some id⟩)], [(id, ⟨name, file.length, [], 0⟩)], 0, []⟩ := by
    simp [receiverStep, receiveFileStart, lookupA, setA]
  have h2 := receiverRun_raw p id (chunksOf file sizes)
    ⟨name, file.length, [], 0⟩ 0 []
  rw [receiverRun] at h2
  rw [receiverRun, List.foldl_cons, h1, List.foldl_append, h2]
  simp [receiverStep, receiveFileEnd, lookupA, setA, eraseA, hflat]

/-- C1: for every file of size S sent over the ordered, reliable channel
under any adaptive chunk-size trajectory, the receiver reassembly on the
end-of-transfer message (concatenation of received chunks in arrival
order) reproduces the original byte sequence exactly, and the reassembled
object has size S. -/
theorem C1_reassembly (file : Bytes) (sizes : Nat → Nat)
    (hsizes : ∀ j, 1 ≤ sizes j) (p name : String) (id : Nat) :
    (receiverRun ⟨[(p, ⟨none⟩)], [], 0, []⟩
        (RMsg.start p ⟨id, name, file.length⟩ ::
          ((chunksOf file sizes).map (RMsg.raw p) ++ [RMsg.fend p id]))).delivered
        = [(name, file)] ∧
    ((receiverRun ⟨[(p, ⟨none⟩)], [], 0, []⟩
        (RMsg.start p ⟨id, name, file.length⟩ ::
          ((chunksOf file sizes).map (RMsg.raw p) ++ [RMsg.fend p id]))).delivered.map
        (fun kv => kv.2.length)) = [file.length] := by
  rw [receiverRun_complete file sizes hsizes p name id]
  exact ⟨rfl, rfl⟩

/-- Witness for C1 at the file [7, 8, 9] with constant chunk size 2. -/
theorem C1_reassembly_instance :
    (∀ j : Nat, 1 ≤ (fun _ : Nat => 2) j) ∧
    ((receiverRun ⟨[("a", ⟨none⟩)], [], 0, []⟩
        (RMsg.start "a" ⟨5, "f", [7, 8, 9].length⟩ ::
          ((chunksOf [7, 8, 9] (fun _ : Nat => 2)).map (RMsg.raw "a") ++
            [RMsg.fend "a" 5]))).delivered = [("f", [7, 8, 9])] ∧
      ((receiverRun ⟨[("a", ⟨none⟩)], [], 0, []⟩
        (RMsg.start "a" ⟨5, "f", [7, 8, 9].length⟩ ::
          ((chunksOf [7, 8, 9] (fun _ : Nat => 2)).map (RMsg.raw "a") ++
            [RMsg.fend "a" 5]))).delivered.map (fun kv => kv.2.length)) =
        [[7, 8, 9].length]) :=
  ⟨fun _ => (by decide : (1 : Nat) ≤ 2),
   C1_reassembly [7, 8, 9] (fun _ : Nat => 2) (fun _ => (by decide : (1 : Nat) ≤ 2)) "a" "f" 5⟩

/-- C10: a raw binary chunk from a peer with no currently active inbound
transfer (no connection record, or its receivingId cleared) leaves the
receiver state completely unchanged: no partial object, no counter change,
no error surfaced. -/
theorem C10_stray_chunk_ignored (st : ReceiverState) (p : String) (c : Bytes)
    (h : lookupA st.connections p = none ∨
         lookupA st.connections p = some ⟨none⟩) :
    receiveFileChunkRaw st p c = st := by
  rcases h with h | h <;> simp [receiveFileChunkRaw, h]

/-- Witness for C10: a connected peer that has ended its transfer sends a
stray chunk; the state is untouched. -/
theorem C10_stray_chunk_ignored_instance :
    (lookupA (⟨[("b", ⟨none⟩)], [], 0, []⟩ : ReceiverState).connections "b" = none ∨
     lookupA (⟨[("b", ⟨none⟩)], [], 0, []⟩ : ReceiverState).connections "b" =
       some ⟨none⟩) ∧
    receiveFileChunkRaw ⟨[("b", ⟨none⟩)], [], 0, []⟩ "b" [1, 2] =
      ⟨[("b", ⟨none⟩)], [], 0, []⟩ :=
  ⟨Or.inr (by decide),
   C10_stray_chunk_ignored ⟨[("b", ⟨none⟩)], [], 0, []⟩ "b" [1, 2]
     (Or.inr (by decide))⟩

/-- C9 counterexample: receiveFileChunkRaw enforces no cap against the
declared size.  A transfer announced with size 1 that receives a 2-byte
chunk ends with its bytes-received counter at 2, strictly above the
declared size. -/
theorem C9_no_cap_counterexample :
    lookupA ((receiveFileChunkRaw
        (receiveFileStart ⟨[("a", ⟨none⟩)], [], 0, []⟩ "a" ⟨1, "f", 1⟩)
        "a" [0, 0]).transfers) 1 = some ⟨"f", 1, [[0, 0]], 2⟩ ∧
    (⟨"f", 1, [[0, 0]], 2⟩ : InboundTransfer).size <
      (⟨"f", 1, [[0, 0]], 2⟩ : InboundTransfer).received := by
  constructor
  · decide
  · decide

/-- C9 (amended): the bytes-received counter grows monotonically with every
chunk, and it stays within the declared size whenever the received chunks
are those actually produced by chunking a source object of the declared
size (the code itself imposes no cap, as the counterexample shows). -/
theorem C9_received_monotone_and_bounded :
    (∀ (st : ReceiverState) (p : String) (c : Bytes) (tid : Nat)
        (t t' : InboundTransfer),
        lookupA st.transfers tid = some t →
        lookupA (receiveFileChunkRaw st p c).transfers tid = some t' →
        t.received ≤ t'.received) ∧
    (∀ (file : Bytes) (sizes : Nat → Nat), (∀ j, 1 ≤ sizes j) →
      ∀ (p name : String) (id k : Nat) (t : InboundTransfer),
        lookupA ((receiverRun ⟨[(p, ⟨none⟩)], [], 0, []⟩
            (RMsg.start p ⟨id, name, file.length⟩ ::
              ((chunksOf file sizes).take k).map (RMsg.raw p))).transfers) id =
          some t →
        t.received ≤ file.length) := by
  constructor
  · intro st p c tid t t' ht ht'
    unfold receiveFileChunkRaw at ht'
    split at ht'
    · rw [ht] at ht'; cases ht'; exact Nat.le_refl _
    · split at ht'
      · rw [ht] at ht'; cases ht'; exact Nat.le_refl _
      · split at ht'
        · rw [ht] at ht'; cases ht'; exact Nat.le_refl _
        · rename_i rid hrid xscr t0 htr
          by_cases heq : rid = tid
          · subst heq
            rw [lookupA_setA_self] at ht'
            rw [htr] at ht
            cases ht
            cases ht'
            exact Nat.le_add_right _ _
          · rw [lookupA_setA_ne _ _ _ _ heq] at ht'
            rw [ht] at ht'
            cases ht'
            exact Nat.le_refl _
  · intro file sizes hsizes p name id k t hlook
    have h1 : receiverStep ⟨[(p, ⟨none⟩)], [], 0, []⟩
        (RMsg.start p ⟨id, name, file.length⟩) =
        ⟨[(p, ⟨some id⟩)], [(id, ⟨name, file.length, [], 0⟩)], 0, []⟩ := by
      simp [receiverStep, receiveFileStart, lookupA, setA]
    rw [receiverRun, List.foldl_cons, h1, ← receiverRun,
      receiverRun_raw] at hlook
    simp only [lookupA, if_pos rfl] at hlook
    cases hlook
    have hsum : ((((chunksOf file sizes).take k).map List.length).sum : Nat) ≤
        ((chunksOf file sizes).map List.length).sum := by
      conv_rhs => rw [← List.take_append_drop k (chunksOf file sizes)]
      rw [List.map_append, List.sum_append]
      exact Nat.le_add_right _ _
    have hall : ((chunksOf file sizes).map List.length).sum = file.length := by
      rw [← List.length_flatten, chunksOf_flatten file sizes hsizes]
    simpa [hall] using hsum

/-- Witness for C9 (amended): file [7, 8, 9] declared with size 3, first
chunk of the size-2 trajectory received; the counter reads 2 and 2 is at
most 3. -/
theorem C9_received_monotone_and_bounded_instance :
    (∀ j : Nat, 1 ≤ (fun _ : Nat => 2) j) ∧
    lookupA ((receiverRun ⟨[("a", ⟨none⟩)], [], 0, []⟩
        (RMsg.start "a" ⟨5, "f", [7, 8, 9].length⟩ ::
          ((chunksOf [7, 8, 9] (fun _ : Nat => 2)).take 1).map
            (RMsg.raw "a"))).transfers) 5 = some ⟨"f", 3, [[7, 8]], 2⟩ ∧
    (⟨"f", 3, [[7, 8]], 2⟩ : InboundTransfer).received ≤ [7, 8, 9].length :=
  ⟨fun _ => (by decide : (1 : Nat) ≤ 2), by decide,
   C9_received_monotone_and_bounded.2 [7, 8, 9] (fun _ : Nat => 2)
     (fun _ => (by decide : (1 : Nat) ≤ 2)) "a" "f" 5 1 ⟨"f", 3, [[7, 8]], 2⟩
     (by decide)⟩

/-- Summing a constant increment over every channel. -/
theorem sum_map_add_const (l : List Nat) (c : Nat) :
    (l.map (· + c)).sum = l.sum + l.length * c := by
  induction l with
  | nil => simp
  | cons a l ih => simp [ih]; ring

/-- C2 counterexample: with fan-out width 17 and a 512 KB file, a single
chunk-loop step from the initial state (total buffered 0, which is not
above the threshold) buffers 512 KB on each of the 17 channels, so the
total outstanding buffered bytes reach 8912896, strictly above the 8 MB
constant that is the only fixed absolute ceiling in the code: the
high-water mark is not scaled by the fan-out width and the total is not
kept below a W-independent ceiling. -/
theorem C2_ceiling_counterexample :
    SendReach 17 524288 ⟨List.replicate 17 524288, 524288⟩ ∧
    (List.replicate 17 524288).sum = 8912896 ∧
    highWaterMark < 8912896 := by
  refine ⟨?_, by decide, by decide⟩
  have h := @SendStep.send 524288 (List.replicate 17 0) 0
    (by decide) (by decide)
  have heq : (⟨(List.replicate 17 0).map (· + min rawChunkSize (524288 - 0)),
      0 + min rawChunkSize (524288 - 0)⟩ : SenderState) =
      ⟨List.replicate 17 524288, 524288⟩ := by decide
  exact Relation.ReflTransGen.single (heq ▸ h)

/-- C2 (amended): the chunk loop only sends while the total buffered amount
is at or below the fixed 8 MB high-water mark, so every reachable sender
state for fan-out width W keeps the total outstanding buffered bytes at or
below highWaterMark + W * rawChunkSize — a bound that grows with W rather
than a W-independent absolute ceiling. -/
theorem C2_total_buffer_bound (w size : Nat) (st : SenderState)
    (h : SendReach w size st) :
    st.buffered.length = w ∧
    st.buffered.sum ≤ highWaterMark + w * rawChunkSize := by
  induction h with
  | refl =>
      refine ⟨List.length_replicate w 0, ?_⟩
      simp [senderInit]
  | tail hpre hstep ih =>
      obtain ⟨hlen, hsum⟩ := ih
      cases hstep with
      | drain b b' o hf =>
          refine ⟨?_, ?_⟩
          · simpa [hf.length_eq] using hlen
          · exact Nat.le_trans (List.Forall₂.sum_le_sum hf) hsum
      | send b o ho hb =>
          refine ⟨by simpa using hlen, ?_⟩
          simp only [sum_map_add_const]
          have hc : min rawChunkSize (size - o) ≤ rawChunkSize :=
            Nat.min_le_left _ _
          have hw : b.length * min rawChunkSize (size - o) ≤ w * rawChunkSize := by
            calc b.length * min rawChunkSize (size - o)
                ≤ b.length * rawChunkSize := Nat.mul_le_mul_left _ hc
              _ = w * rawChunkSize := by rw [hlen]
          calc b.sum + b.length * min rawChunkSize (size - o)
              ≤ highWaterMark + b.length * min rawChunkSize (size - o) :=
                Nat.add_le_add_right hb _
            _ ≤ highWaterMark + w * rawChunkSize := Nat.add_le_add_left hw _

/-- Witness for C2 (amended) at the reachable state of the counterexample:
width 17, total 8912896 within the guaranteed bound 8388608 + 17 * 524288. -/
theorem C2_total_buffer_bound_instance :
    SendReach 17 524288 ⟨List.replicate 17 524288, 524288⟩ ∧
    (List.replicate 17 524288 : List Nat).length = 17 ∧
    (List.replicate 17 524288).sum ≤ highWaterMark + 17 * rawChunkSize := by
  have hreach : SendReach 17 524288 ⟨List.replicate 17 524288, 524288⟩ := by
    have h := @SendStep.send 524288 (List.replicate 17 0) 0
      (by decide) (by decide)
    have heq : (⟨(List.replicate 17 0).map (· + min rawChunkSize (524288 - 0)),
        0 + min rawChunkSize (524288 - 0)⟩ : SenderState) =
        ⟨List.replicate 17 524288, 524288⟩ := by decide
    exact Relation.ReflTransGen.single (heq ▸ h)
  exact ⟨hreach,
    (C2_total_buffer_bound 17 524288 ⟨List.replicate 17 524288, 524288⟩ hreach).1,
    (C2_total_buffer_bound 17 524288 ⟨List.replicate 17 524288, 524288⟩ hreach).2⟩

theorem queueInv_processTransferQueue (st : QueueState) (h : QueueInv st) :
    QueueInv (processTransferQueue st) := by
  unfold processTransferQueue
  by_cases hs : st.isSending
  · rw [if_pos hs]; exact h
  · rw [if_neg hs]
    rcases h with ⟨h1, h2⟩ | ⟨h1, h2⟩
    · cases hq : st.sendingQueue with
      | nil => exact Or.inl ⟨h1, h2⟩
      | cons f rest => exact Or.inr ⟨rfl, f, by simp [h2]⟩
    · exact absurd h1 (by simpa using hs)

theorem queueInv_step (st : QueueState) (e : QEvent) (h : QueueInv st) :
    QueueInv (queueStep st e) := by
  cases e with
  | queueFile f =>
      apply queueInv_processTransferQueue
      rcases h with ⟨h1, h2⟩ | ⟨h1, h2⟩
      · exact Or.inl ⟨h1, h2⟩
      · exact Or.inr ⟨h1, h2⟩
  | process => exact queueInv_processTransferQueue st h
  | finish f =>
      simp only [queueStep]
      by_cases hf : f ∈ st.sending
      · rw [if_pos hf]
        rcases h with ⟨h1, h2⟩ | ⟨h1, ⟨x, h2⟩⟩
        · rw [h2] at hf; cases hf
        · refine Or.inl ⟨rfl, ?_⟩
          rw [h2] at hf
          have hx : f = x := by simpa using hf
          simp [h2, hx]
      · rw [if_neg hf]; exact h

theorem queueInv_run (evs : List QEvent) : QueueInv (queueRun evs) := by
  have hgen : ∀ (l : List QEvent) (st : QueueState), QueueInv st →
      QueueInv (l.foldl queueStep st) := by
    intro l
    induction l with
    | nil => intro st h; exact h
    | cons e l ih => intro st h; exact ih _ (queueInv_step st e h)
  exact hgen evs queueInit (Or.inl ⟨rfl, rfl⟩)

/-- C3 counterexample: `FileTransferManager.sendFile` (transfer.js) marks
every new outbound transfer `sending` immediately, with no serialization
check, so a second call made before the first transfer completes leaves
two transfers simultaneously in `sending` status. -/
theorem C3_two_sending_counterexample :
    lookupA (ftmSendFile (ftmSendFile ⟨[]⟩ 1) 2).transfers 1 = some "sending" ∧
    lookupA (ftmSendFile (ftmSendFile ⟨[]⟩ 1) 2).transfers 2 = some "sending" ∧
    ftmSendingCount (ftmSendFile (ftmSendFile ⟨[]⟩ 1) 2) = 2 := by
  refine ⟨by decide, by decide, by decide⟩

/-- C3 (amended): in the queued raw-chunk engine (`part_002`:
queueFileForSending / processTransferQueue / the isSending lock in
sendFile), every reachable state has at most one outbound transfer
streaming raw chunks; serialization is not enforced by
FileTransferManager.sendFile in transfer.js, whose chunks carry per-chunk
headers instead. -/
theorem C3_queue_serialization (evs : List QEvent) :
    (queueRun evs).sending.length ≤ 1 := by
  rcases queueInv_run evs with ⟨_, h2⟩ | ⟨_, ⟨x, h2⟩⟩ <;> simp [h2]

/-- Candidates arriving while the remote description is unknown are
appended to the pending buffer, one by one, in arrival order. -/
theorem hsRun_cand_buffer (xs : List Nat) :
    ∀ (s : PeerConn), s.hasPC = true → s.remoteDescriptionSet = false →
      (xs.map HSEvent.candidate).foldl hsStep s =
        { s with pending := s.pending ++ xs } := by
  induction xs with
  | nil => intro s h1 h2; simp
  | cons c xs ih =>
      intro s h1 h2
      rw [List.map_cons, List.foldl_cons]
      have hstep : hsStep s (.candidate c) =
          { s with pending := s.pending ++ [c] } := by
        simp [hsStep, h1, h2]
      rw [hstep, ih _ (by simpa using h1) (by simpa using h2)]
      simp

/-- Candidates arriving once the remote description is known are passed to
addIceCandidate immediately, in arrival order. -/
theorem hsRun_cand_apply (xs : List Nat) :
    ∀ (s : PeerConn), s.hasPC = true → s.remoteDescriptionSet = true →
      (xs.map HSEvent.candidate).foldl hsStep s =
        { s with applied := s.applied ++ xs } := by
  induction xs with
  | nil => intro s h1 h2; simp
  | cons c xs ih =>
      intro s h1 h2
      rw [List.map_cons, List.foldl_cons]
      have hstep : hsStep s (.candidate c) =
          { s with applied := s.applied ++ [c] } := by
        simp [hsStep, h1, h2]
      rw [hstep, ih _ (by simpa using h1) (by simpa using h2)]
      simp

/-- C4 counterexample: a candidate buffered before the answer is not
applied at the moment the remote description becomes known — right after
handleAnswer the description is set, yet the candidate still sits in the
pending buffer and addIceCandidate has not been called. -/
theorem C4_drain_timing_counterexample :
    (hsRun [HSEvent.initiate, HSEvent.candidate 0, HSEvent.answer]).remoteDescriptionSet
        = true ∧
    (hsRun [HSEvent.initiate, HSEvent.candidate 0, HSEvent.answer]).applied = [] ∧
    (hsRun [HSEvent.initiate, HSEvent.candidate 0, HSEvent.answer]).pending = [0] := by
  refine ⟨rfl, rfl, rfl⟩

/-- C4 (amended): every candidate received before the remote description is
known is buffered and is applied exactly once, in original arrival order
among the buffered ones, when the data channel opens (after the remote
description is known) — not at the moment the description becomes known;
candidates arriving after the description is known are applied immediately,
hence ahead of earlier buffered ones. -/
theorem C4_buffered_candidates (pre mid post : List Nat) :
    hsRun (HSEvent.initiate ::
        (pre.map HSEvent.candidate ++ [HSEvent.answer] ++
          mid.map HSEvent.candidate ++ [HSEvent.openCh] ++
          post.map HSEvent.candidate)) =
      ⟨true, true, [], mid ++ pre ++ post⟩ := by
  have h1 : (pre.map HSEvent.candidate).foldl hsStep ⟨true, false, [], []⟩ =
      ⟨true, false, pre, []⟩ := by
    have h := hsRun_cand_buffer pre ⟨true, false, [], []⟩ rfl rfl
    simpa using h
  have h2 : (mid.map HSEvent.candidate).foldl hsStep ⟨true, true, pre, []⟩ =
      ⟨true, true, pre, mid⟩ := by
    have h := hsRun_cand_apply mid ⟨true, true, pre, []⟩ rfl rfl
    simpa using h
  have h3 : (post.map HSEvent.candidate).foldl hsStep ⟨true, true, [], mid ++ pre⟩ =
      ⟨true, true, [], mid ++ pre ++ post⟩ := by
    have h := hsRun_cand_apply post ⟨true, true, [], mid ++ pre⟩ rfl rfl
    simpa using h
  unfold hsRun
  rw [List.foldl_cons]
  rw [show hsStep hsInit HSEvent.initiate = (⟨true, false, [], []⟩ : PeerConn)
    from rfl]
  rw [List.foldl_append, List.foldl_append, List.foldl_append,
    List.foldl_append, h1]
  rw [show List.foldl hsStep (⟨true, false, pre, []⟩ : PeerConn)
      [HSEvent.answer] = ⟨true, true, pre, []⟩ from rfl]
  rw [h2]
  rw [show List.foldl hsStep (⟨true, true, pre, mid⟩ : PeerConn)
      [HSEvent.openCh] = ⟨true, true, [], mid ++ pre⟩ from rfl]
  rw [h3]

theorem lookupA_eraseA_ne {α β : Type} [DecidableEq α] (l : List (α × β)) (k k' : α)
    (h : k ≠ k') : lookupA (eraseA l k) k' = lookupA l k' := by
  induction l with
  | nil => simp [eraseA]
  | cons kv rest ih =>
    obtain ⟨k0, v0⟩ := kv
    by_cases hk : k0 = k
    · subst hk
      simp [eraseA, lookupA, h]
    · by_cases hk' : k0 = k'
      · simp [eraseA, lookupA, hk, hk', Ne.symm h]
      · simp [eraseA, lookupA, hk, hk', ih]

theorem lookupA_eq_none_iff {α β : Type} [DecidableEq α] (l : List (α × β)) (k : α) :
    lookupA l k = none ↔ k ∉ l.map Prod.fst := by
  induction l with
  | nil => simp [lookupA]
  | cons kv rest ih =>
    obtain ⟨k0, v0⟩ := kv
    by_cases hk : k0 = k
    · subst hk
      simp [lookupA]
    · simp [lookupA, hk, ih, Ne.symm hk]

theorem keys_setA_absent {α β : Type} [DecidableEq α] (l : List (α × β)) (k : α) (v : β)
    (h : lookupA l k = none) :
    (setA l k v).map Prod.fst = l.map Prod.fst ++ [k] := by
  induction l with
  | nil => simp [setA]
  | cons kv rest ih =>
    obtain ⟨k0, v0⟩ := kv
    by_cases hk : k0 = k
    · subst hk
      simp [lookupA] at h
    · rw [lookupA, if_neg hk] at h
      simp [setA, hk, ih h]

theorem keys_setA_present {α β : Type} [DecidableEq α] (l : List (α × β)) (k : α) (v : β)
    (h : (lookupA l k).isSome) :
    (setA l k v).map Prod.fst = l.map Prod.fst := by
  induction l with
  | nil => simp [lookupA] at h
  | cons kv rest ih =>
    obtain ⟨k0, v0⟩ := kv
    by_cases hk : k0 = k
    · subst hk
      simp [setA]
    · rw [lookupA, if_neg hk] at h
      simp [setA, hk, ih h]

theorem keys_eraseA_sublist {α β : Type} [DecidableEq α] (l : List (α × β)) (k : α) :
    ((eraseA l k).map Prod.fst).Sublist (l.map Prod.fst) := by
  induction l with
  | nil => simp [eraseA]
  | cons kv rest ih =>
    obtain ⟨k0, v0⟩ := kv
    by_cases hk : k0 = k
    · subst hk
      simp only [eraseA, if_pos rfl, List.map_cons]
      exact (List.sublist_cons_self _ _)
    · simp only [eraseA, if_neg hk, List.map_cons]
      exact ih.cons₂ _

/-- Every code produced by generateRoomCode has six characters, each from
the ambiguity-free alphabet. -/
theorem generateRoomCode_valid (rand : Nat → Nat) :
    ValidCode (generateRoomCode rand) := by
  constructor
  · show (String.mk ((List.range 6).map _)).length = 6
    simp [String.length]
  · intro c hc
    have hc' : c ∈ (List.range 6).map
        (fun i => roomChars.getD (rand i % roomChars.length) 'A') := hc
    rw [List.mem_map] at hc'
    obtain ⟨i, _, hi⟩ := hc'
    have hlt : rand i % roomChars.length < roomChars.length :=
      Nat.mod_lt _ (by decide)
    rw [← hi, List.getD_eq_getElem roomChars 'A' hlt]
    exact List.getElem_mem hlt

/-- leaveRoom never touches the entry of a room the leaver is not in. -/
theorem leaveRoom_rooms_other (st : ServerState) (uid code : String)
    (h : ((lookupA st.clients uid).bind Client.roomCode) ≠ some code) :
    lookupA (leaveRoom st uid).1.rooms code = lookupA st.rooms code := by
  unfold leaveRoom
  cases hc : lookupA st.clients uid with
  | none => rfl
  | some c =>
    cases hrc : c.roomCode with
    | none => simp [hrc]
    | some code' =>
      have hne : code' ≠ code := by
        intro hcon
        rw [hc] at h
        simp [Option.bind, hrc, hcon] at h
      cases hroom : lookupA st.rooms code' with
      | none => simp [hrc, hroom]
      | some room =>
        simp only [hrc, hroom]
        by_cases hemp : (eraseA room.users uid).isEmpty
        · rw [if_pos hemp]
          exact lookupA_eraseA_ne _ _ _ hne
        · rw [if_neg hemp]
          exact lookupA_setA_ne _ _ _ _ hne

theorem keysWF_sublist (ks ks' : List String) (h : ks'.Sublist ks)
    (hwf : KeysWF ks) : KeysWF ks' :=
  ⟨List.Nodup.sublist h hwf.1, fun cd hcd => hwf.2 cd (h.subset hcd)⟩

theorem roomsWF_leaveRoom (st : ServerState) (uid : String) (h : RoomsWF st) :
    RoomsWF (leaveRoom st uid).1 := by
  unfold leaveRoom
  cases hc : lookupA st.clients uid with
  | none => exact h
  | some c =>
    cases hrc : c.roomCode with
    | none => simp only [hrc]; exact h
    | some code' =>
      cases hroom : lookupA st.rooms code' with
      | none => simp only [hrc, hroom]; exact h
      | some room =>
        simp only [hrc, hroom]
        by_cases hemp : (eraseA room.users uid).isEmpty
        · rw [if_pos hemp]
          exact keysWF_sublist _ _ (keys_eraseA_sublist st.rooms code') h
        · rw [if_neg hemp]
          have hsome : (lookupA st.rooms code').isSome := by rw [hroom]; rfl
          show KeysWF ((setA st.rooms code' _).map Prod.fst)
          rw [keys_setA_present st.rooms code' _ hsome]
          exact h

theorem roomsWF_createRoom (st : ServerState) (uid username : String)
    (rand : Nat → Nat)
    (hfresh : lookupA st.rooms (generateRoomCode rand) = none)
    (h : RoomsWF st) : RoomsWF (createRoom st uid username rand).1 := by
  show KeysWF ((setA st.rooms (generateRoomCode rand) _).map Prod.fst)
  rw [keys_setA_absent st.rooms (generateRoomCode rand) _ hfresh]
  have hnotin : generateRoomCode rand ∉ st.rooms.map Prod.fst :=
    (lookupA_eq_none_iff st.rooms (generateRoomCode rand)).mp hfresh
  constructor
  · rw [List.nodup_append]
    refine ⟨h.1, List.nodup_singleton _, ?_⟩
    intro a ha hb
    rw [List.mem_singleton] at hb
    subst hb
    exact hnotin ha
  · intro cd hcd
    rcases List.mem_append.mp hcd with hcd | hcd
    · exact h.2 cd hcd
    · rw [List.mem_singleton] at hcd
      subst hcd
      exact generateRoomCode_valid rand

theorem roomsWF_leave_branch (st : ServerState) (uid : String) (c : Prop)
    [Decidable c] (h : RoomsWF st) :
    RoomsWF (if c then leaveRoom st uid else (st, [])).1 := by
  by_cases hc : c
  · rw [if_pos hc]; exact roomsWF_leaveRoom st uid h
  · rw [if_neg hc]; exact h

theorem roomsWF_joinRoom (st : ServerState) (uid rc un : String)
    (h : RoomsWF st) : RoomsWF (joinRoom st uid rc un).1 := by
  have hst1 : RoomsWF (if ((lookupA st.clients uid).bind Client.roomCode).isSome
      then leaveRoom st uid else (st, [])).1 :=
    roomsWF_leave_branch st uid _ h
  unfold joinRoom
  cases hroom : lookupA st.rooms (jsToUpper rc) with
  | none => simp only [hroom]; exact h
  | some room0 =>
    simp only [hroom]
    cases hmid : lookupA (if ((lookupA st.clients uid).bind Client.roomCode).isSome
        then leaveRoom st uid else (st, [])).1.rooms (jsToUpper rc) with
    | none => simp only [hmid]; exact hst1
    | some room1 =>
      simp only [hmid]
      have hsome : (lookupA (if ((lookupA st.clients uid).bind Client.roomCode).isSome
          then leaveRoom st uid else (st, [])).1.rooms (jsToUpper rc)).isSome := by
        rw [hmid]; rfl
      show KeysWF ((setA _ (jsToUpper rc) _).map Prod.fst)
      rw [keys_setA_present _ (jsToUpper rc) _ hsome]
      exact hst1

theorem roomsWF_reach (st : ServerState) (h : ServerReach st) : RoomsWF st := by
  induction h with
  | init => exact ⟨List.nodup_nil, by intro cd hcd; cases hcd⟩
  | connect st uid _ ih => exact ih
  | create st uid username rand _ hfresh ih =>
      exact roomsWF_createRoom st uid username rand hfresh ih
  | join st uid rc un _ ih => exact roomsWF_joinRoom st uid rc un ih
  | leave st uid _ ih => exact roomsWF_leaveRoom st uid ih
  | disconnect st uid _ ih => exact roomsWF_leaveRoom st uid ih

/-- C5: in every reachable server state, no two simultaneously-live rooms
share a code, and every live code — in particular every code returned by
createRoom, which the create step puts into the table — is exactly six
characters drawn from the uppercase alphabet with 0, O, 1 and I removed;
generateRoomCode only ever produces such codes. -/
theorem C5_room_codes (st : ServerState) (h : ServerReach st) :
    (st.rooms.map Prod.fst).Nodup ∧
    (∀ code ∈ st.rooms.map Prod.fst,
      code.length = 6 ∧ ∀ ch ∈ code.toList, ch ∈ roomChars) ∧
    (∀ rand : Nat → Nat, (generateRoomCode rand).length = 6 ∧
      ∀ ch ∈ (generateRoomCode rand).toList, ch ∈ roomChars) := by
  have hwf := roomsWF_reach st h
  exact ⟨hwf.1, fun cd hcd => hwf.2 cd hcd, fun rand => generateRoomCode_valid rand⟩

/-- Witness for C5: the state after one create-room request is reachable
and its room-code table has no duplicate codes. -/
theorem C5_room_codes_instance :
    ServerReach (createRoom (⟨[], []⟩ : ServerState) "u" "alice" (fun _ => 0)).1 ∧
    ((createRoom (⟨[], []⟩ : ServerState) "u" "alice"
        (fun _ => 0)).1.rooms.map Prod.fst).Nodup := by
  have hreach : ServerReach (createRoom (⟨[], []⟩ : ServerState) "u" "alice"
      (fun _ => 0)).1 :=
    ServerReach.create ⟨[], []⟩ "u" "alice" (fun _ => 0) ServerReach.init rfl
  exact ⟨hreach, (C5_room_codes _ hreach).1⟩

/-- C7 is violated by the code: createRoom never removes the requester from
the room it already belongs to (joinRoom does, createRoom does not), so two
consecutive create-room requests by the same endpoint leave it a member of
two distinct live rooms simultaneously. -/
theorem C7_double_membership :
    ((lookupA (createRoom (createRoom (⟨[], [("u", ⟨none, ""⟩)]⟩ : ServerState)
          "u" "alice" (fun _ => 0)).1 "u" "alice" (fun _ => 1)).1.rooms
        "AAAAAA").map (fun r => (lookupA r.users "u").isSome) = some true) ∧
    ((lookupA (createRoom (createRoom (⟨[], [("u", ⟨none, ""⟩)]⟩ : ServerState)
          "u" "alice" (fun _ => 0)).1 "u" "alice" (fun _ => 1)).1.rooms
        "BBBBBB").map (fun r => (lookupA r.users "u").isSome) = some true) ∧
    "AAAAAA" ≠ "BBBBBB" := by
  refine ⟨by decide, by decide, by decide⟩

/-- C8: a join-room request whose code names no live room replies with the
Room-not-found error to the requesting endpoint only, and leaves the whole
server state (room table and memberships) unchanged. -/
theorem C8_room_not_found (st : ServerState) (uid roomCodeArg username : String)
    (h : lookupA st.rooms (jsToUpper roomCodeArg) = none) :
    joinRoom st uid roomCodeArg username =
      (st, [(uid, ServerMsg.errorMsg "Room not found")]) := by
  simp [joinRoom, h]

/-- Witness for C8: joining the empty server with code zzz fails cleanly. -/
theorem C8_room_not_found_instance :
    lookupA (⟨[], []⟩ : ServerState).rooms (jsToUpper "zzz") = none ∧
    joinRoom ⟨[], []⟩ "u" "zzz" "alice" =
      (⟨[], []⟩, [("u", ServerMsg.errorMsg "Room not found")]) :=
  ⟨rfl, C8_room_not_found ⟨[], []⟩ "u" "zzz" "alice" rfl⟩

theorem lookupA_eraseA_self {α β : Type} [DecidableEq α] (l : List (α × β)) (k : α)
    (h : (l.map Prod.fst).Nodup) : lookupA (eraseA l k) k = none := by
  induction l with
  | nil => rfl
  | cons kv rest ih =>
    obtain ⟨k0, v0⟩ := kv
    rw [List.map_cons, List.nodup_cons] at h
    by_cases hk : k0 = k
    · subst hk
      rw [eraseA, if_pos rfl]
      exact (lookupA_eq_none_iff rest k0).mpr h.1
    · rw [eraseA, if_neg hk, lookupA, if_neg hk]
      exact ih h.2

/-- C6 counterexample: when the sole member of a room re-joins its own
room code, joinRoom first leaves (deleting the room from the table) and
then mutates the room object it captured before the leave, so the joiner
is sent room-joined carrying the member list of a room that is no longer
live — the delivered list does not equal the true current membership of
any live room (the code now names no room at all). -/
theorem C6_self_rejoin_counterexample :
    (joinRoom (createRoom (⟨[], [("u", ⟨none, ""⟩)]⟩ : ServerState)
        "u" "alice" (fun _ => 0)).1 "u" "aaaaaa" "alice").2 =
      [("u", ServerMsg.roomJoined (jsToUpper "aaaaaa") [⟨"u", "alice"⟩])] ∧
    membersOf (joinRoom (createRoom (⟨[], [("u", ⟨none, ""⟩)]⟩ : ServerState)
        "u" "alice" (fun _ => 0)).1 "u" "aaaaaa" "alice").1
      (jsToUpper "aaaaaa") = none := by
  refine ⟨by decide, by decide⟩

/-- C6 (amended): every membership-changing operation other than a
self-rejoin delivers the true current member list of the affected room,
never a delta: createRoom replies with the singleton list that is the new
room membership; a successful joinRoom, for a joiner not already in that
room, sends the joiner the full list and every other member the same full
list, both equal to the room membership after the join; leaveRoom
broadcasts to exactly the remaining members the full list equal to the
membership after the removal, and when the last member leaves the room is
deleted and nobody is notified.  (A sole member re-joining its own room
code instead receives a list for a room that was deleted mid-join, as the
counterexample shows.) -/
theorem C6_member_lists :
    (∀ (st : ServerState) (uid username : String) (rand : Nat → Nat),
      (createRoom st uid username rand).2 =
        [(uid, ServerMsg.roomCreated (generateRoomCode rand) [⟨uid, username⟩])] ∧
      membersOf (createRoom st uid username rand).1 (generateRoomCode rand) =
        some [⟨uid, username⟩]) ∧
    (∀ (st : ServerState) (uid rcArg un : String) (room0 : Room),
      lookupA st.rooms (jsToUpper rcArg) = some room0 →
      ((lookupA st.clients uid).bind Client.roomCode) ≠ some (jsToUpper rcArg) →
      membersOf (joinRoom st uid rcArg un).1 (jsToUpper rcArg) =
          some ((setA room0.users uid ⟨uid, un⟩).map (·.2)) ∧
      (uid, ServerMsg.roomJoined (jsToUpper rcArg)
          ((setA room0.users uid ⟨uid, un⟩).map (·.2))) ∈
        (joinRoom st uid rcArg un).2 ∧
      ∀ kv ∈ setA room0.users uid ⟨uid, un⟩, kv.1 ≠ uid →
        (kv.1, ServerMsg.userJoined ⟨uid, un⟩
          ((setA room0.users uid ⟨uid, un⟩).map (·.2))) ∈
          (joinRoom st uid rcArg un).2) ∧
    (∀ (st : ServerState) (uid : String) (c : Client) (code : String) (room : Room),
      lookupA st.clients uid = some c → c.roomCode = some code →
      lookupA st.rooms code = some room →
      (leaveRoom st uid).2 = (eraseA room.users uid).map
          (fun kv => (kv.1, ServerMsg.userLeft uid
            ((eraseA room.users uid).map (·.2)))) ∧
      ((eraseA room.users uid).isEmpty = false →
        membersOf (leaveRoom st uid).1 code =
          some ((eraseA room.users uid).map (·.2))) ∧
      ((st.rooms.map Prod.fst).Nodup → (eraseA room.users uid).isEmpty = true →
        membersOf (leaveRoom st uid).1 code = none)) := by
  refine ⟨?_, ?_, ?_⟩
  · intro st uid username rand
    exact ⟨rfl, by simp [createRoom, membersOf, lookupA_setA_self]⟩
  · intro st uid rcArg un room0 hroom hnotself
    have hmid : lookupA (if ((lookupA st.clients uid).bind Client.roomCode).isSome
        then leaveRoom st uid else (st, [])).1.rooms (jsToUpper rcArg) =
        some room0 := by
      by_cases hin : ((lookupA st.clients uid).bind Client.roomCode).isSome
      · rw [if_pos hin, leaveRoom_rooms_other st uid _ hnotself]
        exact hroom
      · rw [if_neg hin]
        exact hroom
    unfold joinRoom
    simp only [hroom, hmid]
    refine ⟨?_, ?_, ?_⟩
    · simp [membersOf, lookupA_setA_self]
    · simp
    · intro kv hkv hne
      have hfil : kv ∈ (setA room0.users uid
          (⟨uid, un⟩ : Member)).filter (fun kv => kv.1 ≠ uid) :=
        List.mem_filter.mpr ⟨hkv, by simpa using hne⟩
      have hmem : (kv.1, ServerMsg.userJoined ⟨uid, un⟩
          ((setA room0.users uid (⟨uid, un⟩ : Member)).map (·.2))) ∈
          ((setA room0.users uid (⟨uid, un⟩ : Member)).filter
            (fun kv => kv.1 ≠ uid)).map (fun kv => (kv.1,
              ServerMsg.userJoined ⟨uid, un⟩
                ((setA room0.users uid (⟨uid, un⟩ : Member)).map (·.2)))) :=
        List.mem_map.mpr ⟨kv, hfil, rfl⟩
      simp only [List.mem_append]
      exact Or.inr hmem
  · intro st uid c code room hc hrc hroom
    unfold leaveRoom
    simp only [hc, hrc, hroom]
    refine ⟨by trivial, ?_, ?_⟩
    · intro hne
      simp [hne, membersOf, lookupA_setA_self]
    · intro hnd hemp
      simp [hemp, membersOf, lookupA_eraseA_self st.rooms code hnd]

/-- Witness for C6: in a room created by u (code AAAAAA), a join by v
succeeds; the post-join membership for code AAAAAA is exactly the
two-member list, and v receives room-joined carrying that full list. -/
theorem C6_member_lists_instance :
    lookupA (createRoom (⟨[], [("u", ⟨none, ""⟩), ("v", ⟨none, ""⟩)]⟩ : ServerState)
        "u" "alice" (fun _ => 0)).1.rooms (jsToUpper "aaaaaa") =
      some ⟨"AAAAAA", [("u", ⟨"u", "alice"⟩)]⟩ ∧
    ((lookupA (createRoom (⟨[], [("u", ⟨none, ""⟩), ("v", ⟨none, ""⟩)]⟩ : ServerState)
        "u" "alice" (fun _ => 0)).1.clients "v").bind Client.roomCode) ≠
      some (jsToUpper "aaaaaa") ∧
    membersOf (joinRoom (createRoom
        (⟨[], [("u", ⟨none, ""⟩), ("v", ⟨none, ""⟩)]⟩ : ServerState)
        "u" "alice" (fun _ => 0)).1 "v" "aaaaaa" "bob").1 (jsToUpper "aaaaaa") =
      some [⟨"u", "alice"⟩, ⟨"v", "bob"⟩] ∧
    ("v", ServerMsg.roomJoined (jsToUpper "aaaaaa")
        [⟨"u", "alice"⟩, ⟨"v", "bob"⟩]) ∈
      (joinRoom (createRoom (⟨[], [("u", ⟨none, ""⟩), ("v", ⟨none, ""⟩)]⟩ : ServerState)
        "u" "alice" (fun _ => 0)).1 "v" "aaaaaa" "bob").2 := by
  have h := C6_member_lists.2.1 (createRoom
      (⟨[], [("u", ⟨none, ""⟩), ("v", ⟨none, ""⟩)]⟩ : ServerState)
      "u" "alice" (fun _ => 0)).1 "v" "aaaaaa" "bob"
      ⟨"AAAAAA", [("u", ⟨"u", "alice"⟩)]⟩ (by decide) (by decide)
  exact ⟨by decide, by decide, h.1, h.2.1⟩

end Velo
